import Mathlib

/-!
Shallow embedding of the ciggurat ECS core (src/src/world.c) and proofs about
its layout planner, match graph, region storage, spawn path, and dispatch.

Conventions of the embedding:
* machine integers (`size_t`, `int32_t`) are modelled as `ℕ`; the one place the
  code relies on a `(size_t)-1` sentinel (`get_offset`) uses the explicit
  constant `SIZE_MAX = 2^64 - 1`;
* C strings are `List Char`;
* pointers are byte addresses (`ℕ`), with `Option ℕ` where the code
  distinguishes NULL record pointers;
* raw memory is a function `ℕ → ℕ` from byte address to byte value;
* bitsets over type ids are `Finset ℕ`; set-bit iteration order
  (`bitset_first` / `bitset_next`) is ascending id order, matching the
  contract in spec §6.4 and the `for (id = 0; bitset_next(..); id++)` loops.
-/

namespace Ciggurat

/-- CHUNK_BYTE_SIZE = CHUNK_KB_SIZE * 1024 with CHUNK_KB_SIZE = 16 (world.c:31-32). -/
def CHUNK_BYTE_SIZE : ℕ := 16 * 1024

/-- Value of `(size_t)-1` on the 64-bit targets the code assumes; `get_offset`
returns it as its not-found sentinel. -/
def SIZE_MAX : ℕ := 2 ^ 64 - 1

/-- `CigTypeDesc` (ciggurat.h): identifier, size, alignment. -/
structure TypeDescM where
  identifier : List Char
  size : ℕ
  alignment : ℕ
deriving DecidableEq, Repr

/-- `get_size` (world.c:160): size of the type with the given id; the code
indexes the registry vector directly, out-of-range ids are modelled as size 0. -/
def get_size (types : List TypeDescM) (id : ℕ) : ℕ :=
  ((types.get? id).map TypeDescM.size).getD 0

/-- `get_alignment` (world.c:164). -/
def get_alignment (types : List TypeDescM) (id : ℕ) : ℕ :=
  ((types.get? id).map TypeDescM.alignment).getD 0

/-- `get_id` (world.c:168): linear scan for the first registered type whose
identifier equals the string; `none` models the `-1` failure return. -/
def get_id (types : List TypeDescM) (s : List Char) : Option ℕ :=
  types.findIdx? (fun t => t.identifier = s)

/-- `count_char` (world.c:564): number of occurrences of `c` in the string. -/
def count_char : List Char → Char → ℕ
  | [], _ => 0
  | x :: xs, c => (if x = c then 1 else 0) + count_char xs c

/-- Split a character list at commas (every comma is a split point). -/
def splitComma : List Char → List (List Char)
  | [] => [[]]
  | c :: rest =>
    match splitComma rest with
    | [] => [[]]
    | t :: ts => if c = ',' then [] :: t :: ts else (c :: t) :: ts

/-- `tokenize` (world.c:574): strip spaces, then `strtok` on commas.  `strtok`
skips empty fields, hence the final filter. -/
def tokenize (s : List Char) : List (List Char) :=
  (splitComma (s.filter (fun c => ¬ c = ' '))).filter (fun t => ¬ t = [])

/-! ## Layout planner (`calculate_layout`, world.c:182-272) -/

/-- One `struct storage_layout_type_desc` (world.c:42). -/
structure LayoutEntry where
  id : ℕ
  size : ℕ
  offset : ℕ
deriving DecidableEq, Repr

/-- `struct storage_layout` (world.c:48). -/
structure LayoutM where
  types : List LayoutEntry
  count : ℕ
  family_size : ℕ
  alignment : ℕ
deriving DecidableEq, Repr

/-- First scan of `calculate_layout` (world.c:194-212): pick the member with
the strictly largest size (ties keep the earlier id, since the loop only
replaces on `size > best`); `ids` is the mask in ascending-bit order. -/
def widestType (types : List TypeDescM) (first : ℕ) (ids : List ℕ) : ℕ × ℕ :=
  ids.foldl
    (fun best id =>
      if get_size types id > best.2 then (id, get_size types id) else best)
    (first, get_size types first)

/-- Family alignment (world.c:199-205): maximum alignment over the mask. -/
def familyAlignment (types : List TypeDescM) (first : ℕ) (ids : List ℕ) : ℕ :=
  ids.foldl (fun a id => max a (get_alignment types id)) (get_alignment types first)

/-- Inner greedy scan of the packer (world.c:233-243): walk the remaining ids
in ascending order, adopting any type whose size fits into `rb` remaining pad
bytes, breaking early on a perfect fit.  `best` starts as the first remaining
id with its size. -/
def scanFit (types : List TypeDescM) (rb : ℕ) : List ℕ → ℕ × ℕ → ℕ × ℕ
  | [], best => best
  | id :: rest, best =>
    let sz := get_size types id
    if sz ≤ rb then
      if sz = rb then (id, sz) else scanFit types rb rest (id, sz)
    else scanFit types rb rest best

/-- Add `pad` to the size of the last staged entry (world.c:245-246,
`layout->types[i-1].size += remaining_bytes`). -/
def absorbLast (pad : ℕ) : List LayoutEntry → List LayoutEntry
  | [] => []
  | [e] => [{ e with size := e.size + pad }]
  | e :: rest => e :: absorbLast pad rest

/-- The packing loop of `calculate_layout` (world.c:228-254).  `fuel` is the
number of iterations still to run (`layout->count - i`); `remaining` is the
`remaining_types` bitset in ascending order; `acc` the staged entries. -/
def packLoop (types : List TypeDescM) (alignment : ℕ) :
    ℕ → List ℕ → ℕ → List LayoutEntry → List LayoutEntry
  | 0, _, _, acc => acc
  | _ + 1, [], _, acc => acc
  | fuel + 1, hd :: rest, rb, acc =>
    let best := scanFit types rb (hd :: rest) (hd, get_size types hd)
    let acc1 := if best.2 > rb then absorbLast rb acc else acc
    packLoop types alignment fuel ((hd :: rest).erase best.1)
      (alignment - best.2 % alignment)
      (acc1 ++ [⟨best.1, best.2, 0⟩])

/-- Offset assignment pass (world.c:258-265): offsets are the running sum of
staged sizes; returns the finished entries and the family size. -/
def assignOffsets : List LayoutEntry → ℕ → List LayoutEntry × ℕ
  | [], fam => ([], fam)
  | e :: rest, fam =>
    let r := assignOffsets rest (fam + e.size)
    ({ e with offset := fam } :: r.1, r.2)

/-- `calculate_layout` (world.c:182-272) on a mask given in ascending-bit
order.  The empty mask hits uninitialised-read territory in the C
(`bitset_first` on an empty set); spec §4.2 fixes it as the empty layout, and
no claim depends on it. -/
def calculate_layout (types : List TypeDescM) (ids : List ℕ) : LayoutM :=
  match ids with
  | [] => ⟨[], 0, 0, 0⟩
  | first :: _ =>
    let w := widestType types first ids
    let alignment := familyAlignment types first ids
    let remaining := ids.erase w.1
    let count := ids.length
    let rb := alignment - w.2 % alignment
    let staged := packLoop types alignment (count - 1) remaining rb [⟨w.1, w.2, 0⟩]
    let fin := assignOffsets staged 0
    ⟨fin.1, count, fin.2, alignment⟩

/-- `get_offset` (world.c:995-1007): linear search of the layout table for the
entry with the given type id, returning its offset, or `(size_t)-1` when the
storage does not contain the type. -/
def get_offset (layout : LayoutM) (id : ℕ) : ℕ :=
  match layout.types.find? (fun e => e.id = id) with
  | some e => e.offset
  | none => SIZE_MAX

/-! ## Requirement parsing into masks -/

/-- `generate_entity_mask` folded through `populate_mask` (world.c:638-682,
985-993): each token must name some registered type (first match by name);
the named ids are collected into the inclusion mask.  `populate_mask` fails
when the token count exceeds the registered-type count or a token matches no
type.  The C stores the ids in a `Bitset`; the width it is allocated with is
modelled separately (see the C5 development), the idealized mask here is a
`Finset`. -/
def entity_mask (types : List TypeDescM) (s : List Char) : Option (Finset ℕ) :=
  let tokens := tokenize s
  if types.length < tokens.length then none
  else
    tokens.foldl
      (fun acc tok => acc.bind fun m => (get_id types tok).map fun id => insert id m)
      (some ∅)

/-- Result of `generate_system_masks` over all tokens (world.c:684-715):
include mask, exclude mask and the ordered operand id list (positive tokens
only, in token order). -/
structure SystemMasks where
  must_have : Finset ℕ
  must_not_have : Finset ℕ
  operand_ids : List ℕ
deriving DecidableEq

/-- One `generate_system_masks` resolution step for a token: `!name` adds the
named id to the exclude mask; a plain `name` adds it to the include mask and
appends it to the operand list (`*(*types)++ = id`, world.c:707). -/
def applyToken (types : List TypeDescM) (m : SystemMasks) (tok : List Char) :
    Option SystemMasks :=
  match tok with
  | '!' :: rest =>
    (get_id types rest).map fun id =>
      { m with must_not_have := insert id m.must_not_have }
  | _ =>
    (get_id types tok).map fun id =>
      { m with must_have := insert id m.must_have
               operand_ids := m.operand_ids ++ [id] }

/-- `populate_mask` specialised to `generate_system_masks` (world.c:638-682). -/
def system_masksOf (types : List TypeDescM) (s : List Char) : Option SystemMasks :=
  let tokens := tokenize s
  if types.length < tokens.length then none
  else tokens.foldl (fun acc tok => acc.bind (applyToken types · tok)) (some ⟨∅, ∅, []⟩)

/-! ## Systems (`struct system`, `system_init`, world.c:94-115, 728-791) -/

/-- `CigSystemDesc` (ciggurat.h:18-23).  `func` and `user_data` are opaque
pointers, modelled as numbers. -/
structure SystemDescM where
  identifier : List Char
  requirements : List Char
  func : ℕ
  user_data : ℕ
deriving DecidableEq, Repr

/-- `struct system` (world.c:94-115).  Note the C struct stores **no**
`user_data` field; this model mirrors that field-for-field. -/
structure SystemM where
  identifier : List Char
  types : List ℕ
  types_len : ℕ
  must_have : Finset ℕ
  must_not_have : Finset ℕ
  func : ℕ
  offsets : List ℕ
deriving DecidableEq

/-- `system_init` (world.c:728-791).  `existing` is the set of identifiers
already in the world's system table (the `hash_map_has` duplicate check).
The operand capacity is `count_char(req, ',') + 1 - count_char(req, '!')`
(world.c:745-747); `offsets` is calloc'd to that length (world.c:753), and
`types_len` is set to the capacity (world.c:757).  `desc->user_data` is
never read. -/
def system_init (types : List TypeDescM) (existing : List (List Char))
    (d : SystemDescM) : Option SystemM :=
  if d.identifier ∈ existing then none
  else
    let capacity := count_char d.requirements ',' + 1 - count_char d.requirements '!'
    (system_masksOf types d.requirements).map fun m =>
      { identifier := d.identifier
        types := m.operand_ids
        types_len := capacity
        must_have := m.must_have
        must_not_have := m.must_not_have
        func := d.func
        offsets := List.replicate capacity 0 }

/-- `CigSystemCtx` (world.c:135-140): a base pointer into the current slot and
the borrowed offset scratch.  There is no `user_data` member. -/
structure SystemCtxM where
  ptr : Option ℕ
  offsets : List ℕ
deriving DecidableEq, Repr

/-- `cig_system_get_component` (world.c:1226-1229): `ctx->ptr + ctx->offsets[idx]`. -/
def cig_system_get_component (ctx : SystemCtxM) (idx : ℕ) : Option ℕ :=
  ctx.ptr.map (· + ctx.offsets.getD idx 0)

/-- The offset-scratch population of `system_run` (world.c:940-943):
`offsets[i] = storage->layout.types[id].offset` where `id = system->types[i]`.
The layout table is indexed **positionally** by the type id; `none` models the
out-of-bounds read when the id is not a valid index of the table. -/
def system_run_offsets (layout : LayoutM) (operand_ids : List ℕ) : List (Option ℕ) :=
  operand_ids.map fun id => (layout.types.get? id).map LayoutEntry.offset

/-! ## World model: directory, storages, spawn, component access

The world model tracks addresses but not byte contents (byte contents are
modelled in the region-storage development below).  The archetype↔system
match graph is modelled in its own development (it does not influence spawn
or component access). -/

/-- `struct entity_internal` (world.c:34-40): the directory slot.  `storage`
is the index of the storage in the world's table, `ptr` the record address
(`none` = NULL). -/
structure EntityM where
  storage : Option ℕ
  ptr : Option ℕ
deriving DecidableEq, Repr

/-- `struct region` (world.c:63-66) as owned by a storage: base address
(`none` = NULL pseudo region of a zero-family storage) and live-slot count. -/
structure RegionW where
  ptr : Option ℕ
  count : ℕ
deriving DecidableEq, Repr

/-- A `struct region` used as a request segment: a run of `count` slots
starting at `ptr`. -/
structure SegW where
  ptr : Option ℕ
  count : ℕ
deriving DecidableEq, Repr

/-- `struct storage` (world.c:79-92) without the matched-system set (modelled
in the match-graph development). -/
structure WStorage where
  mask : Finset ℕ
  layout : LayoutM
  regions : List RegionW
  unassigned : List SegW
deriving DecidableEq

/-- `CigWorld` (world.c:117-133).  `allocPtr` is the allocator frontier from
which fresh region base addresses are carved. -/
structure WorldM where
  types : List TypeDescM
  storages : List WStorage
  entities : List EntityM
  next_entity : ℕ
  unassigned : List ℕ
  allocPtr : ℕ
deriving DecidableEq

/-- `cig_world_init` (world.c:803-830): the empty world. -/
def cig_world_init : WorldM := ⟨[], [], [], 0, [], 0⟩

/-- `cig_world_register_type` (world.c:870-896): reject duplicate names,
otherwise append; the new id is the previous registry length. -/
def cig_world_register_type (w : WorldM) (d : TypeDescM) : Option WorldM :=
  if (w.types.findIdx? (fun t => t.identifier = d.identifier)).isSome then none
  else some { w with types := w.types ++ [d] }

/-- The set bits of a mask in ascending position order, as `bitset_first` /
`bitset_next` enumerate them over a bitset of the given width. -/
def maskAsc (width : ℕ) (mask : Finset ℕ) : List ℕ :=
  (List.range width).filter fun id => decide (id ∈ mask)

/-- `get_storage` (world.c:390-413): look the mask up in the storage table;
on a miss initialise a new storage with its layout (`storage_init`,
world.c:286-311) and append it.  Returns the world and the storage index.
Spawn masks only ever contain registered ids, so the registry length bounds
the bit positions to scan. -/
def get_storage (w : WorldM) (mask : Finset ℕ) : WorldM × ℕ :=
  match w.storages.findIdx? (fun st => st.mask = mask) with
  | some i => (w, i)
  | none =>
    let layout := calculate_layout w.types (maskAsc w.types.length mask)
    ({ w with storages := w.storages ++ [⟨mask, layout, [], []⟩] }, w.storages.length)

/-- State of the `while (i < count)` reservation loop of
`storage_request_regions` (world.c:475-507) at world level (addresses only). -/
structure WReqSt where
  regions : List RegionW
  allocPtr : ℕ
  segs : List SegW
  i : ℕ
deriving Repr

/-- One iteration of the reservation loop (world.c:475-507): if the head
region is absent or full, prepend a freshly allocated one
(`prepend_new_region`, world.c:415-426); then carve
`j = min(free_count, count - i)` slots off the head region's tail. -/
def w_request_step (fs count : ℕ) (r : WReqSt) : WReqSt :=
  if count ≤ r.i then r else
  let fpr := CHUNK_BYTE_SIZE / fs
  let r1 : WReqSt :=
    match r.regions with
    | [] =>
      { r with regions := ⟨some r.allocPtr, 0⟩ :: r.regions
               allocPtr := r.allocPtr + CHUNK_BYTE_SIZE }
    | reg :: _ =>
      if fpr - reg.count = 0 then
        { r with regions := ⟨some r.allocPtr, 0⟩ :: r.regions
                 allocPtr := r.allocPtr + CHUNK_BYTE_SIZE }
      else r
  match r1.regions with
  | [] => r1
  | reg :: rest =>
    let offset := reg.count * fs
    let free_count := fpr - reg.count
    let j := min free_count (count - r1.i)
    { regions := ⟨reg.ptr, reg.count + j⟩ :: rest
      allocPtr := r1.allocPtr
      segs := r1.segs ++ [⟨reg.ptr.map (· + offset), j⟩]
      i := r1.i + j }

/-- Iterate the reservation loop `fuel` times.  When `0 < fs ≤ CHUNK` every
iteration reserves at least one slot, so `fuel = count` reproduces the C
loop's final state (see the termination development for the proof). -/
def w_request_iter (fs count : ℕ) : ℕ → WReqSt → WReqSt
  | 0, r => r
  | fuel + 1, r => w_request_iter fs count fuel (w_request_step fs count r)

/-- `storage_request_regions` (world.c:428-528) at world level.  The
zero-family branch (world.c:438-456) prepends a NULL pseudo region holding
`count` slots; otherwise the whole `unassigned` vector is drained LIFO into
the request (world.c:458-473, one `i` increment per drained segment) and the
reservation loop covers the rest.  A successful spawn commits, which resizes
`unassigned` down to the drained count of zero
(`storage_regions_request_commit`, world.c:544-561). -/
def w_request (st : WStorage) (allocPtr count : ℕ) : WStorage × ℕ × List SegW :=
  let fs := st.layout.family_size
  if fs = 0 then
    ({ st with regions := ⟨none, count⟩ :: st.regions }, allocPtr, [⟨none, count⟩])
  else
    let r0 : WReqSt := ⟨st.regions, allocPtr, st.unassigned.reverse, st.unassigned.length⟩
    let r := w_request_iter fs count count r0
    ({ st with regions := r.regions, unassigned := [] }, r.allocPtr, r.segs)

/-- The directory-update half of `assign_regions` (world.c:1009-1064): walk
the request's segments, slot by slot, pairing them with the just-spawned
entity ids, and point each directory entry at the new storage and record
address (`e->ptr = region->ptr + offset`, world.c:1050-1051; a NULL region
base leaves the record pointer NULL).  The byte-copying migration block
(world.c:1025-1045) acts on memory, not the directory; it is modelled in the
migration development. -/
def assign_entities (entities : List EntityM) (ids : List ℕ) (sIdx fs : ℕ)
    (segs : List SegW) : List EntityM :=
  let slots := segs.flatMap fun seg =>
    (List.range seg.count).map fun j => seg.ptr.map (· + j * fs)
  (ids.zip slots).foldl (fun es p => es.set p.1 ⟨some sIdx, p.2⟩) entities

/-- `cig_world_spawn` (world.c:1066-1138): build the inclusion mask from the
requirement string, find or create the storage, draw entity ids (the whole
recycled stack LIFO first, then freshly minted ids with blank directory
entries appended), reserve `count` slots and assign them.  The mask-width
computation `count_char(types_str, ',') + 1` (world.c:1071,1078) is treated
in the C5 development. -/
def cig_world_spawn (w : WorldM) (count : ℕ) (types_str : List Char) :
    Option (WorldM × List ℕ) :=
  match entity_mask w.types types_str with
  | none => none
  | some mask =>
    let ws := get_storage w mask
    let w1 := ws.1
    let recycled := w1.unassigned.reverse
    let freshCount := count - recycled.length
    let ids := recycled ++ (List.range freshCount).map (w1.next_entity + ·)
    let entities1 := w1.entities ++ List.replicate freshCount ⟨none, none⟩
    match w1.storages.get? ws.2 with
    | none => none
    | some st =>
      let req := w_request st w1.allocPtr count
      let entities2 := assign_entities entities1 ids ws.2 st.layout.family_size req.2.2
      some
        ({ w1 with
            storages := w1.storages.set ws.2 req.1
            entities := entities2
            next_entity := w1.next_entity + freshCount
            unassigned := []
            allocPtr := req.2.1 },
          ids)

/-- Resolve a directory entry's storage pointer (`e_internal->storage`). -/
def storageOf (w : WorldM) (ei : EntityM) : Option WStorage :=
  ei.storage.bind (w.storages.get? ·)

/-- `cig_world_get_component` (world.c:1140-1187), check for check: a NULL
record pointer, an unregistered type name, a mask miss, and the `(size_t)-1`
offset sentinel each return NULL; otherwise the result is
`e_internal->ptr + offset`. -/
def cig_world_get_component (w : WorldM) (e : ℕ) (type_str : List Char) :
    Option ℕ :=
  match w.entities.get? e with
  | none => none
  | some ei =>
    match ei.ptr with
    | none => none
    | some p =>
      match get_id w.types type_str with
      | none => none
      | some id =>
        match storageOf w ei with
        | none => none
        | some st =>
          if id ∈ st.mask then
            let off := get_offset st.layout id
            if off = SIZE_MAX then none else some (p + off)
          else none

/-- Directory/storage well-formedness of a world, as the spawn path
establishes it: a non-NULL record pointer implies a resolvable storage
pointer; a record pointer is NULL exactly when the entity was never assigned
a storage or its storage has family size zero (the NULL pseudo-region slots,
world.c:438-456 and 1050); and every storage's layout covers its mask, so
`get_offset` never yields the `(size_t)-1` sentinel for a mask member. -/
def WFWorld (w : WorldM) : Prop :=
  (∀ ei ∈ w.entities,
    (ei.ptr.isSome = true → (storageOf w ei).isSome = true) ∧
    (ei.ptr = none ↔
      (ei.storage = none ∨
        (storageOf w ei).map (fun st => st.layout.family_size) = some 0))) ∧
  (∀ st ∈ w.storages, ∀ id ∈ st.mask, get_offset st.layout id ≠ SIZE_MAX)

instance (w : WorldM) : Decidable (WFWorld w) := by
  unfold WFWorld; infer_instance

/-! ## Match graph (`is_match`, `storage_find_matches`, `system_find_matches`)

The bidirectional archetype↔system relation is modelled on its own: storages
and systems are kept in registration order and matched sets hold indices into
the opposite list.  `storage_find_matches` (world.c:354-388) runs when a new
storage is created, `system_find_matches` (world.c:898-931) when a new system
is registered; in both, each matching pair is inserted on both sides. -/

/-- `is_match` (world.c:348-352): the storage mask must not intersect the
system's exclude mask and must contain the include mask (plain subset). -/
def is_match (mask must_have must_not_have : Finset ℕ) : Prop :=
  mask ∩ must_not_have = ∅ ∧ must_have ⊆ mask

instance (mask mh mnh : Finset ℕ) : Decidable (is_match mask mh mnh) := by
  unfold is_match; infer_instance

/-- A storage as a match-graph node: its mask and the indices of the systems
in its matched-systems map. -/
structure MStorage where
  mask : Finset ℕ
  systems : List ℕ
deriving DecidableEq

/-- A system as a match-graph node: its two masks and the indices of the
storages in its matched-storages map. -/
structure MSystem where
  must_have : Finset ℕ
  must_not_have : Finset ℕ
  storages : List ℕ
deriving DecidableEq

/-- The world restricted to its match graph: storages and systems in
registration order. -/
structure MatchWorld where
  storages : List MStorage
  systems : List MSystem

/-- The system indices a new storage with the given mask matches
(`storage_find_matches`'s scan, world.c:354-388). -/
def matchedSystems (w : MatchWorld) (mask : Finset ℕ) : List ℕ :=
  (List.range w.systems.length).filter fun j =>
    match w.systems.get? j with
    | some s => decide (is_match mask s.must_have s.must_not_have)
    | none => false

/-- The storage indices a new system with the given masks matches
(`system_find_matches`'s scan, world.c:898-931). -/
def matchedStorages (w : MatchWorld) (mh mnh : Finset ℕ) : List ℕ :=
  (List.range w.storages.length).filter fun i =>
    match w.storages.get? i with
    | some a => decide (is_match a.mask mh mnh)
    | none => false

/-- New-storage registration (`get_storage` + `storage_find_matches`,
world.c:390-413, 354-388): scan every registered system, and for each match
insert the pair on both sides. -/
def addStorage (w : MatchWorld) (mask : Finset ℕ) : MatchWorld :=
  { storages := w.storages ++ [⟨mask, matchedSystems w mask⟩]
    systems := w.systems.map fun s =>
      if is_match mask s.must_have s.must_not_have then
        { s with storages := s.storages ++ [w.storages.length] }
      else s }

/-- New-system registration (`cig_world_register_system` +
`system_find_matches`, world.c:962-983, 898-931): the symmetric scan. -/
def addSystem (w : MatchWorld) (mh mnh : Finset ℕ) : MatchWorld :=
  { storages := w.storages.map fun a =>
      if is_match a.mask mh mnh then
        { a with systems := a.systems ++ [w.systems.length] }
      else a
    systems := w.systems ++ [⟨mh, mnh, matchedStorages w mh mnh⟩] }

/-- A registration event: archetype creation or system registration. -/
inductive MatchOp where
  | storage (mask : Finset ℕ)
  | system (mh mnh : Finset ℕ)

/-- Apply one registration event. -/
def applyOp (w : MatchWorld) : MatchOp → MatchWorld
  | .storage mask => addStorage w mask
  | .system mh mnh => addSystem w mh mnh

/-- The match graph produced by a registration sequence starting from the
empty world (`cig_world_init`). -/
def buildMatchWorld (ops : List MatchOp) : MatchWorld :=
  ops.foldl applyOp ⟨[], []⟩

/-- The match-graph invariant: matched sets hold in-range indices, and a pair
is on one side iff it is on the other iff `is_match` holds for it. -/
def MatchInv (w : MatchWorld) : Prop :=
  (∀ a ∈ w.storages, ∀ j ∈ a.systems, j < w.systems.length) ∧
  (∀ s ∈ w.systems, ∀ i ∈ s.storages, i < w.storages.length) ∧
  (∀ i j a s, w.storages.get? i = some a → w.systems.get? j = some s →
    ((j ∈ a.systems ↔ i ∈ s.storages) ∧
     (j ∈ a.systems ↔ is_match a.mask s.must_have s.must_not_have)))

/-! ## Region storage with byte contents (`region_init`,
`storage_request_regions`, `storage_unassign_regions`, commit/abort)

This development tracks raw bytes: `mem : ℕ → ℕ` maps byte addresses to byte
values, and `allocPtr` is the allocator frontier fresh regions are carved
from.  It covers storages with a nonzero family size (the zero-family pseudo
region owns no memory). -/

/-- A region owned by the storage: base address of its CHUNK_BYTE_SIZE block
and its live-slot count (`struct region`, world.c:63-66). -/
structure RegionC where
  base : ℕ
  count : ℕ
deriving DecidableEq, Repr

/-- A request segment (`struct region` reused, world.c:501): a run of `count`
slots starting at byte address `ptr`. -/
structure SegC where
  ptr : ℕ
  count : ℕ
deriving DecidableEq, Repr

/-- A storage's memory-level state: the byte heap, the allocator frontier,
the owned regions (head-first), and the unassigned segment pool. -/
structure StoreSt where
  mem : ℕ → ℕ
  allocPtr : ℕ
  regions : List RegionC
  unassigned : List SegC

/-- `region_init` (world.c:142-148) on the heap: the fresh CHUNK_BYTE_SIZE
block is `memset` to zero. -/
def region_init_mem (m : ℕ → ℕ) (base : ℕ) : ℕ → ℕ :=
  fun a => if base ≤ a ∧ a < base + CHUNK_BYTE_SIZE then 0 else m a

/-- `prepend_new_region` (world.c:415-426): allocate and zero a fresh region
and push it at the head of the region list. -/
def storePrepend (st : StoreSt) : StoreSt :=
  { mem := region_init_mem st.mem st.allocPtr
    allocPtr := st.allocPtr + CHUNK_BYTE_SIZE
    regions := ⟨st.allocPtr, 0⟩ :: st.regions
    unassigned := st.unassigned }

/-- State of a `storage_regions_request` (world.c:68-77) while the
reservation loop runs: the storage, the collected segments and the slot
counter `i`. -/
structure ReqC where
  st : StoreSt
  segs : List SegC
  i : ℕ

/-- One iteration of the `while (i < count)` reservation loop
(world.c:475-507): when the head region is absent or full, prepend a fresh
one; then carve `j = min(families_per_region - count, count - i)` slots off
the head region's tail as one segment. -/
def request_step (fs count : ℕ) (r : ReqC) : ReqC :=
  if count ≤ r.i then r else
  let fpr := CHUNK_BYTE_SIZE / fs
  let st1 :=
    match r.st.regions with
    | [] => storePrepend r.st
    | reg :: _ => if fpr - reg.count = 0 then storePrepend r.st else r.st
  match st1.regions with
  | [] => { r with st := st1 }
  | reg :: rest =>
    let j := min (fpr - reg.count) (count - r.i)
    { st := { st1 with regions := ⟨reg.base, reg.count + j⟩ :: rest }
      segs := r.segs ++ [⟨reg.base + reg.count * fs, j⟩]
      i := r.i + j }

/-- Iterate the reservation loop a given number of times. -/
def request_iter (fs count : ℕ) : ℕ → ReqC → ReqC
  | 0, r => r
  | n + 1, r => request_iter fs count n (request_step fs count r)

/-- `storage_request_regions` for a nonzero family size (world.c:428-528):
drain the whole unassigned pool LIFO (world.c:458-473; `i` advances once per
drained segment), then run the reservation loop.  `count` fuel iterations
reproduce the C loop's final state whenever `0 < fs ≤ CHUNK_BYTE_SIZE` (each
pass reserves at least one slot; see the termination theorems). -/
def mkRequest (fs : ℕ) (st : StoreSt) (count : ℕ) : ReqC :=
  request_iter fs count count ⟨st, st.unassigned.reverse, st.unassigned.length⟩

/-- `storage_regions_request_commit` with `commit = 1` (world.c:544-561): the
unassigned vector is resized down to the drained count, which the full drain
left at zero. -/
def request_commit (r : ReqC) : StoreSt :=
  { r.st with unassigned := [] }

/-- `storage_regions_request_commit` with `commit = 0`, i.e.
`storage_unassign_regions` (world.c:530-542): every segment of the request is
appended to the unassigned pool (the vector itself was never shrunk). -/
def request_abort (r : ReqC) : StoreSt :=
  { r.st with unassigned := r.st.unassigned ++ r.segs }

/-- Storage states reachable through the public spawn path: freshly
initialised (empty region list, empty pool, any heap contents), or the
committed or aborted outcome of a slot reservation. -/
inductive StoreReach (fs : ℕ) : StoreSt → Prop
  | init (m : ℕ → ℕ) (ap : ℕ) : StoreReach fs ⟨m, ap, [], []⟩
  | commit (st : StoreSt) (count : ℕ) :
      StoreReach fs st → StoreReach fs (request_commit (mkRequest fs st count))
  | abort (st : StoreSt) (count : ℕ) :
      StoreReach fs st → StoreReach fs (request_abort (mkRequest fs st count))

/-- Every byte of the `n`-byte block at `b` is zero. -/
def RangeZero (m : ℕ → ℕ) (b n : ℕ) : Prop :=
  ∀ a, b ≤ a → a < b + n → m a = 0

/-- Region-count well-formedness: no region holds more than
`families_per_region` slots. -/
def RegionsWF (fs : ℕ) (regions : List RegionC) : Prop :=
  ∀ reg ∈ regions, reg.count ≤ CHUNK_BYTE_SIZE / fs

/-- The storage invariant behind the freshly-spawned-slots-are-zero
guarantee: region counts are in bounds, all region bytes are zero, and every
pooled segment's bytes are zero. -/
def StoreInv (fs : ℕ) (st : StoreSt) : Prop :=
  RegionsWF fs st.regions ∧
  (∀ reg ∈ st.regions, RangeZero st.mem reg.base CHUNK_BYTE_SIZE) ∧
  (∀ seg ∈ st.unassigned, RangeZero st.mem seg.ptr (seg.count * fs))

/-- The in-flight request invariant: the storage invariant plus zeroness of
every segment collected so far. -/
def ReqInv (fs : ℕ) (r : ReqC) : Prop :=
  StoreInv fs r.st ∧ ∀ seg ∈ r.segs, RangeZero r.st.mem seg.ptr (seg.count * fs)

/-! ## Migration copy (`assign_regions`, world.c:1025-1045) -/

/-- C `memcpy(dst, src, n)` on the byte heap. -/
def memcpyM (m : ℕ → ℕ) (dst src n : ℕ) : ℕ → ℕ :=
  fun a => if dst ≤ a ∧ a < dst + n then m (src + (a - dst)) else m a

/-- The intersection-copy block of `assign_regions` (world.c:1035-1042),
iterating the ids of the old∩new mask intersection in ascending order.  For
each id the C executes `memcpy(src, dest, size)` where `src` is
`e->ptr + get_offset(old_storage, id)` and `dest` is
`e->ptr + get_offset(storage, id)` — so the memcpy **destination** is the old
record at the old offset and its source is the old record at the new
storage's offset (`e->ptr` still holds the old record pointer at this point;
the new record pointer is only assigned afterwards, world.c:1050). -/
def migration_copy (tys : List TypeDescM) (oldL newL : LayoutM) (e_ptr : ℕ)
    (inter : List ℕ) (m : ℕ → ℕ) : ℕ → ℕ :=
  inter.foldl
    (fun m id =>
      memcpyM m (e_ptr + get_offset oldL id) (e_ptr + get_offset newL id)
        (get_size tys id))
    m

/-! ## Dispatch order (`cig_world_step`, `system_run`) -/

/-- A system as the dispatcher sees it: for each matched storage (in the
system's storage-map iteration order) the head-first list of region slot
counts. -/
structure DSystem where
  storages : List (List ℕ)
deriving DecidableEq, Repr

/-- The callback invocations of one `system_run` (world.c:933-960): matched
storages in map-iteration order, regions head-first, slots in ascending
index order.  An event is (system index, storage position, region position,
slot index). -/
def system_run_trace (j : ℕ) (s : DSystem) : List (ℕ × ℕ × ℕ × ℕ) :=
  (List.range s.storages.length).flatMap fun k =>
    let regions := s.storages.getD k []
    (List.range regions.length).flatMap fun r =>
      (List.range (regions.getD r 0)).map fun i => (j, k, r, i)

/-- `cig_world_step` (world.c:1209-1224): run every system in the world's
system hash map, in the map's iteration order.  The map is an external
collaborator whose code is not in the repository; per the contract of spec
§6.4 its iteration order is an unspecified (but fixed) enumeration of the
registered systems, so `order` ranges over permutations of the registration
indices. -/
def step_trace (systems : List DSystem) (order : List ℕ) :
    List (ℕ × ℕ × ℕ × ℕ) :=
  order.flatMap fun j =>
    match systems.get? j with
    | some s => system_run_trace j s
    | none => []

/-- Registration-order discipline of a trace: every event of an
earlier-registered system precedes every event of a later one. -/
def RegOrdered (tr : List (ℕ × ℕ × ℕ × ℕ)) : Prop :=
  tr.Pairwise fun e1 e2 => e1.1 ≤ e2.1

instance (tr : List (ℕ × ℕ × ℕ × ℕ)) : Decidable (RegOrdered tr) := by
  unfold RegOrdered; exact List.instDecidablePairwise tr

/-! ## Spawn mask width (`cig_world_spawn`, world.c:1066-1084) -/

/-- The bitset width `cig_world_spawn` allocates for the spawn mask
(world.c:1071 and 1078): `count_char(types_str, ',') + 1`, one bit per
comma-separated field of the requirement string. -/
def spawn_mask_len (types_str : List Char) : ℕ :=
  count_char types_str ',' + 1

/-- The type ids the spawn requirement string names — the bit positions
`populate_mask` will include in the spawn mask. -/
def spawn_named_ids (types : List TypeDescM) (types_str : List Char) :
    List (Option ℕ) :=
  (tokenize types_str).map (get_id types)

/-- The width `system_init` allocates for its two masks (world.c:760-766):
the registered-type count. -/
def system_mask_len (types : List TypeDescM) : ℕ :=
  types.length

/-! ## Concrete registries used by the counterexample theorems -/

/-- Registry with `a` of size 1/alignment 1 (id 0) and `b` of size 4/alignment
4 (id 1). -/
def tysAB : List TypeDescM := [⟨['a'], 1, 1⟩, ⟨['b'], 4, 4⟩]

/-- Registry with `c` (2 bytes, 2-aligned, id 0), `a` (8 bytes, 8-aligned,
id 1) and `b` (1 byte, 1-aligned, id 2). -/
def tysMis : List TypeDescM := [⟨['c'], 2, 2⟩, ⟨['a'], 8, 8⟩, ⟨['b'], 1, 1⟩]

/-- The identifier string of the zero-size tag type. -/
def tagName : List Char := ['t', 'a', 'g']

/-- A world with the single registered type `tag` of size 0, alignment 1. -/
def tagWorld0 : WorldM :=
  (cig_world_register_type cig_world_init ⟨tagName, 0, 1⟩).getD cig_world_init

/-- Heap for the migration counterexample: the old record's single component
byte at address 100 holds 42; every other byte holds 7. -/
def memC8 : ℕ → ℕ := fun a => if a = 100 then 42 else 7

/-- The tag world after `spawn(1, "tag")`. -/
def tagWorld1 : WorldM :=
  ((cig_world_spawn tagWorld0 1 tagName).map Prod.fst).getD cig_world_init

/-- Registration sequence for the match-graph witness: one system requiring
type 0 and excluding nothing, then one archetype over types `{0, 1}`. -/
def c2ops : List MatchOp := [.system {0} ∅, .storage (insert 0 {1})]

/-- Two registered systems for the dispatch-order development, each matching
one storage that has a single region holding one slot. -/
def dsys2 : List DSystem := [⟨[[1]]⟩, ⟨[[1]]⟩]

/-- Registry with the single type `x` of size 2, alignment 2. -/
def tysW : List TypeDescM := [⟨['x'], 2, 2⟩]

/-- A freshly initialised storage state over a heap holding 7 in every byte
(`StoreReach.init`): reservations must still hand out all-zero slots. -/
def stW : StoreSt := ⟨fun _ => 7, 0, [], []⟩

/-- A reservation-loop start state on a fresh storage (no regions, nothing
drained). -/
def reqW : ReqC := ⟨⟨fun _ => 0, 0, [], []⟩, [], 0⟩

/-- C1.  The per-archetype offset scratch does not satisfy
`offsets[i] = A.offset_of(operand_ids[i])`: `system_run` fills the scratch by
indexing the layout table positionally with the operand's type id
(`storage->layout.types[id].offset`, world.c:942) instead of searching the
table for the entry with that id as `get_offset` does.  With registry `tysAB`
and the archetype `{a, b}` the layout places `b` (id 1) first and `a` (id 0)
at offset 4; for a system over `"a"` (operand ids `[0]`, matched since
`{0} ⊆ {0,1}`) the scratch receives offset 0 — the offset of `b`'s entry —
while the layout offset of operand `a` is 4, so
`cig_system_get_component(ctx, 0) = ctx.base + 0` points at `b`'s bytes. -/
theorem c1_offset_scratch_positional :
    system_run_offsets (calculate_layout tysAB [0, 1]) [0] = [some 0] ∧
    get_offset (calculate_layout tysAB [0, 1]) 0 = 4 ∧
    (calculate_layout tysAB [0, 1]).types = [⟨1, 4, 0⟩, ⟨0, 1, 4⟩] := by decide

/-- C3.  The alignment invariant `A.offset(t) % align(t) == 0` fails: with
registry `tysMis` (registration order `c(2,2)`, `a(8,8)`, `b(1,1)`) and the
archetype mask `{0,1,2}`, `calculate_layout` stages `a` at offset 0, then the
greedy hole-filler — which keeps the **last** fitting candidate in bit order —
adopts the 1-byte `b` ahead of the 2-byte `c`, leaving `c` (alignment 2) at
the odd offset 9. -/
theorem c3_misaligned_offset :
    (calculate_layout tysMis [0, 1, 2]).types =
        [⟨1, 8, 0⟩, ⟨2, 1, 8⟩, ⟨0, 2, 9⟩] ∧
    get_offset (calculate_layout tysMis [0, 1, 2]) 0 = 9 ∧
    get_alignment tysMis 0 = 2 ∧
    9 % 2 = 1 := by decide

/-- C5.  The spawn mask is not a bitset of length equal to the registered-type
count: `cig_world_spawn` sizes it as `count_char(types_str, ',') + 1`
(world.c:1071, 1078), one bit per comma-separated token.  With the two-type
registry `tysAB`, spawning `"b"` builds a 1-bit mask, yet the requirement
names type id 1, which does **not** lie below the mask's bit-length — while
`system_init`'s masks (width = registered count, world.c:760-766) would
accommodate it. -/
theorem c5_spawn_mask_width :
    spawn_mask_len ['b'] = 1 ∧
    spawn_named_ids tysAB ['b'] = [some 1] ∧
    ¬ (1 : ℕ) < spawn_mask_len ['b'] ∧
    system_mask_len tysAB = 2 ∧
    (1 : ℕ) < system_mask_len tysAB := by decide

/-- C7.  The registered system retains no trace of `desc->user_data`:
`system_init` (world.c:728-791) never reads the field, `struct system` has no
member for it, and the `CigSystemCtx` handed to callbacks carries only the
slot pointer and the offset scratch — so the system state produced by
registration is identical for any two `user_data` values, and no conforming
`cig_system_get_user_data` (declared in ciggurat.h:36 but undefined in the
sources) can recover the registered pointer from a context. -/
theorem c7_user_data_never_stored (types : List TypeDescM)
    (existing : List (List Char)) (d : SystemDescM) (p q : ℕ) :
    system_init types existing { d with user_data := p } =
      system_init types existing { d with user_data := q } := rfl

/-- C8.  The migration copy moves bytes in the wrong direction and never
touches the newly reserved record.  Concrete input: entity's old record (the
single-type archetype `{a}`, `a` at offset 0) lives at address 100 and holds
component byte 42; the new archetype `{a, b}` places `a` at offset 4, and the
freshly reserved record sits at address 200.  The claim requires byte 42 to
arrive at `200 + 4 = 204`; instead the code's
`memcpy(e->ptr + old_off, e->ptr + new_off, size)` leaves address 204 at its
prior heap value 7 and overwrites the old record's byte at 100 with the value
7 read from address 104. -/
theorem c8_migration_copy_backwards :
    migration_copy tysAB (calculate_layout tysAB [0])
        (calculate_layout tysAB [0, 1]) 100 [0] memC8 204 = 7 ∧
    migration_copy tysAB (calculate_layout tysAB [0])
        (calculate_layout tysAB [0, 1]) 100 [0] memC8 100 = 7 ∧
    memC8 100 = 42 ∧
    get_offset (calculate_layout tysAB [0]) 0 = 0 ∧
    get_offset (calculate_layout tysAB [0, 1]) 0 = 4 := by decide

/-- C6 counterexample.  Spawning one entity of the zero-size `tag` type
yields a live entity (directory storage = storage 0) whose archetype mask
contains the registered id of `tag` (id 0), yet `cig_world_get_component`
returns NULL: the zero-family pseudo region hands out NULL record pointers
and the function bails on `!e_internal->ptr` (world.c:1146) before ever
consulting the mask — contradicting the claim that NULL is returned only for
a non-live entity, an unregistered type, or a mask miss. -/
theorem c6_tag_archetype_returns_null :
    (cig_world_spawn tagWorld0 1 tagName).map
        (fun p =>
          (cig_world_get_component p.1 0 tagName,
            (p.1.entities.get? 0).map EntityM.storage,
            get_id p.1.types tagName,
            (p.1.storages.get? 0).map fun st => decide (0 ∈ st.mask))) =
      some (none, some (some 0), some 0, some true) := by decide

/-! ## Match-graph invariant lemmas -/

/-- Membership in a new storage's matched-system scan, resolved against the
system actually stored at index `j`. -/
theorem mem_matchedSystems {w : MatchWorld} {mask : Finset ℕ} {j : ℕ}
    {s : MSystem} (hsj : w.systems.get? j = some s) :
    j ∈ matchedSystems w mask ↔ is_match mask s.must_have s.must_not_have := by
  unfold matchedSystems
  rw [List.mem_filter, List.mem_range]
  constructor
  · rintro ⟨_, hp⟩
    rw [hsj] at hp
    exact of_decide_eq_true hp
  · intro hm
    obtain ⟨hj, _⟩ := List.get?_eq_some.mp hsj
    exact ⟨hj, by rw [hsj]; exact decide_eq_true hm⟩

/-- Indices produced by the matched-system scan are in range. -/
theorem mem_matchedSystems_lt {w : MatchWorld} {mask : Finset ℕ} {j : ℕ}
    (h : j ∈ matchedSystems w mask) : j < w.systems.length := by
  unfold matchedSystems at h
  rw [List.mem_filter, List.mem_range] at h
  exact h.1

/-- Membership in a new system's matched-storage scan, resolved against the
storage actually stored at index `i`. -/
theorem mem_matchedStorages {w : MatchWorld} {mh mnh : Finset ℕ} {i : ℕ}
    {a : MStorage} (hai : w.storages.get? i = some a) :
    i ∈ matchedStorages w mh mnh ↔ is_match a.mask mh mnh := by
  unfold matchedStorages
  rw [List.mem_filter, List.mem_range]
  constructor
  · rintro ⟨_, hp⟩
    rw [hai] at hp
    exact of_decide_eq_true hp
  · intro hm
    obtain ⟨hi, _⟩ := List.get?_eq_some.mp hai
    exact ⟨hi, by rw [hai]; exact decide_eq_true hm⟩

/-- Indices produced by the matched-storage scan are in range. -/
theorem mem_matchedStorages_lt {w : MatchWorld} {mh mnh : Finset ℕ} {i : ℕ}
    (h : i ∈ matchedStorages w mh mnh) : i < w.storages.length := by
  unfold matchedStorages at h
  rw [List.mem_filter, List.mem_range] at h
  exact h.1

/-- Archetype creation preserves the match-graph invariant. -/
theorem addStorage_inv {w : MatchWorld} (mask : Finset ℕ) (h : MatchInv w) :
    MatchInv (addStorage w mask) := by
  obtain ⟨h1, h2, h3⟩ := h
  unfold MatchInv addStorage
  refine ⟨?_, ?_, ?_⟩
  · intro a ha j hj
    simp only [List.length_map]
    rcases List.mem_append.mp ha with ha | ha
    · exact h1 a ha j hj
    · rw [List.mem_singleton] at ha
      subst ha
      exact mem_matchedSystems_lt hj
  · intro s hs i hi
    simp only [List.length_append, List.length_singleton]
    rcases List.mem_map.mp hs with ⟨s0, hs0, rfl⟩
    by_cases hm : is_match mask s0.must_have s0.must_not_have
    · rw [if_pos hm] at hi
      simp only at hi
      rcases List.mem_append.mp hi with hi | hi
      · have := h2 s0 hs0 i hi; omega
      · rw [List.mem_singleton] at hi; omega
    · rw [if_neg hm] at hi
      have := h2 s0 hs0 i hi; omega
  · intro i j a s ha hs
    rw [List.get?_map] at hs
    cases hsj : w.systems.get? j with
    | none => rw [hsj] at hs; cases hs
    | some s0 =>
      rw [hsj] at hs
      simp only [Option.map_some'] at hs
      injection hs with hs
      subst hs
      have hs0mem : s0 ∈ w.systems := List.get?_mem hsj
      have hbound : ∀ x ∈ s0.storages, x < w.storages.length := h2 s0 hs0mem
      by_cases hi : i < w.storages.length
      · rw [List.get?_append hi] at ha
        have old := h3 i j a s0 ha hsj
        by_cases hm : is_match mask s0.must_have s0.must_not_have
        · rw [if_pos hm]
          refine ⟨?_, old.2⟩
          simp only [List.mem_append, List.mem_singleton]
          rw [old.1]
          constructor
          · exact fun hx => Or.inl hx
          · rintro (hx | hx)
            · exact hx
            · exact absurd hx (by omega)
        · rw [if_neg hm]
          exact old
      · have hlen : i = w.storages.length := by
          obtain ⟨hlt, _⟩ := List.get?_eq_some.mp ha
          simp only [List.length_append, List.length_singleton] at hlt
          omega
        subst hlen
        rw [List.get?_append_right (Nat.le_refl _), Nat.sub_self] at ha
        simp only [List.get?] at ha
        injection ha with ha
        subst ha
        have hmm := @mem_matchedSystems w mask j s0 hsj
        by_cases hm : is_match mask s0.must_have s0.must_not_have
        · rw [if_pos hm]
          refine ⟨?_, ?_⟩
          · simp only [List.mem_append, List.mem_singleton]
            exact ⟨fun _ => Or.inr trivial, fun _ => hmm.mpr hm⟩
          · exact ⟨fun _ => hm, fun _ => hmm.mpr hm⟩
        · rw [if_neg hm]
          refine ⟨?_, ?_⟩
          · constructor
            · intro hx; exact absurd (hmm.mp hx) hm
            · intro hx; exact absurd (hbound _ hx) (by omega)
          · exact hmm

/-- System registration preserves the match-graph invariant. -/
theorem addSystem_inv {w : MatchWorld} (mh mnh : Finset ℕ) (h : MatchInv w) :
    MatchInv (addSystem w mh mnh) := by
  obtain ⟨h1, h2, h3⟩ := h
  unfold MatchInv addSystem
  refine ⟨?_, ?_, ?_⟩
  · intro a ha j hj
    simp only [List.length_append, List.length_singleton]
    rcases List.mem_map.mp ha with ⟨a0, ha0, rfl⟩
    by_cases hm : is_match a0.mask mh mnh
    · rw [if_pos hm] at hj
      simp only at hj
      rcases List.mem_append.mp hj with hj | hj
      · have := h1 a0 ha0 j hj; omega
      · rw [List.mem_singleton] at hj; omega
    · rw [if_neg hm] at hj
      have := h1 a0 ha0 j hj; omega
  · intro s hs i hi
    simp only [List.length_map]
    rcases List.mem_append.mp hs with hs | hs
    · exact h2 s hs i hi
    · rw [List.mem_singleton] at hs
      subst hs
      exact mem_matchedStorages_lt hi
  · intro i j a s ha hs
    rw [List.get?_map] at ha
    cases hai : w.storages.get? i with
    | none => rw [hai] at ha; cases ha
    | some a0 =>
      rw [hai] at ha
      simp only [Option.map_some'] at ha
      injection ha with ha
      subst ha
      have ha0mem : a0 ∈ w.storages := List.get?_mem hai
      have hbound : ∀ x ∈ a0.systems, x < w.systems.length := h1 a0 ha0mem
      by_cases hj : j < w.systems.length
      · rw [List.get?_append hj] at hs
        have old := h3 i j a0 s hai hs
        by_cases hm : is_match a0.mask mh mnh
        · rw [if_pos hm]
          refine ⟨?_, ?_⟩
          · simp only [List.mem_append, List.mem_singleton]
            rw [← old.1]
            constructor
            · rintro (hx | hx)
              · exact hx
              · exact absurd hx (by omega)
            · exact fun hx => Or.inl hx
          · simp only [List.mem_append, List.mem_singleton]
            constructor
            · rintro (hx | hx)
              · exact (old.2).mp hx
              · exact absurd hx (by omega)
            · exact fun hx => Or.inl ((old.2).mpr hx)
        · rw [if_neg hm]
          exact old
      · have hlen : j = w.systems.length := by
          obtain ⟨hlt, _⟩ := List.get?_eq_some.mp hs
          simp only [List.length_append, List.length_singleton] at hlt
          omega
        subst hlen
        rw [List.get?_append_right (Nat.le_refl _), Nat.sub_self] at hs
        simp only [List.get?] at hs
        injection hs with hs
        subst hs
        have hmm := @mem_matchedStorages w mh mnh i a0 hai
        by_cases hm : is_match a0.mask mh mnh
        · rw [if_pos hm]
          refine ⟨?_, ?_⟩
          · simp only [List.mem_append, List.mem_singleton]
            exact ⟨fun _ => hmm.mpr hm, fun _ => Or.inr trivial⟩
          · simp only [List.mem_append, List.mem_singleton]
            exact ⟨fun _ => hm, fun _ => Or.inr trivial⟩
        · rw [if_neg hm]
          refine ⟨?_, ?_⟩
          · constructor
            · intro hx; exact absurd (hbound _ hx) (by omega)
            · intro hx; exact absurd (hmm.mp hx) hm
          · constructor
            · intro hx; exact absurd (hbound _ hx) (by omega)
            · intro hx; exact absurd hx hm

/-- The empty world satisfies the match-graph invariant. -/
theorem matchInv_nil : MatchInv ⟨[], []⟩ := by
  refine ⟨?_, ?_, ?_⟩
  · intro a ha; cases ha
  · intro s hs; cases hs
  · intro i j a s ha _; simp at ha

/-- Every registration event preserves the match-graph invariant. -/
theorem applyOp_inv {w : MatchWorld} (op : MatchOp) (h : MatchInv w) :
    MatchInv (applyOp w op) := by
  cases op with
  | storage mask => exact addStorage_inv mask h
  | system mh mnh => exact addSystem_inv mh mnh h

/-- The match-graph invariant holds of every world built by a registration
sequence. -/
theorem matchInv_build (ops : List MatchOp) : MatchInv (buildMatchWorld ops) := by
  unfold buildMatchWorld
  have aux : ∀ (l : List MatchOp) (w : MatchWorld), MatchInv w →
      MatchInv (l.foldl applyOp w) := by
    intro l
    induction l with
    | nil => exact fun w h => h
    | cons op rest ih => exact fun w h => ih _ (applyOp_inv op h)
  exact aux ops _ matchInv_nil

/-- C2.  For every world built by any interleaving of archetype creations and
system registrations, and for every archetype `A` (index `i`) and system `S`
(index `j`) in it: `S` is in `A`'s matched-system set iff `A` is in `S`'s
matched-storage set iff `S.include_mask ⊆ A.mask` and
`S.exclude_mask ∩ A.mask = ∅` — the plain-subset matching of `is_match`
(world.c:348-352), established and preserved by `storage_find_matches` and
`system_find_matches`. -/
theorem c2_match_graph_iff (ops : List MatchOp) (i j : ℕ) (a : MStorage)
    (s : MSystem) (ha : (buildMatchWorld ops).storages.get? i = some a)
    (hs : (buildMatchWorld ops).systems.get? j = some s) :
    (j ∈ a.systems ↔ i ∈ s.storages) ∧
    (j ∈ a.systems ↔ is_match a.mask s.must_have s.must_not_have) :=
  (matchInv_build ops).2.2 i j a s ha hs

/-- Witness for C2 at a concrete registration sequence: a system over `{0}`
then an archetype over `{0, 1}` (extra component), which match. -/
theorem c2_match_graph_iff_witness :
    (0 ∈ (MStorage.mk (insert 0 {1}) [0]).systems ↔
      0 ∈ (MSystem.mk {0} ∅ [0]).storages) ∧
    (0 ∈ (MStorage.mk (insert 0 {1}) [0]).systems ↔
      is_match (insert 0 {1}) {0} ∅) :=
  c2_match_graph_iff c2ops 0 0 _ _ (by decide) (by decide)

/-! ## Layout size and offset bounds -/

/-- The widest-type scan keeps its size component equal to the size of its id
component. -/
theorem widest_aux (tys : List TypeDescM) :
    ∀ (l : List ℕ) (b : ℕ × ℕ), b.2 = get_size tys b.1 →
      (l.foldl (fun best id =>
          if get_size tys id > best.2 then (id, get_size tys id) else best) b).2 =
        get_size tys (l.foldl (fun best id =>
          if get_size tys id > best.2 then (id, get_size tys id) else best) b).1 := by
  intro l
  induction l with
  | nil => exact fun b hb => hb
  | cons x xs ih =>
    intro b hb
    simp only [List.foldl_cons]
    by_cases hx : get_size tys x > b.2
    · exact ih _ (by rw [if_pos hx])
    · exact ih _ (by rw [if_neg hx]; exact hb)

/-- The staged widest entry records exactly its type's registered size. -/
theorem widestType_snd (tys : List TypeDescM) (first : ℕ) (ids : List ℕ) :
    (widestType tys first ids).2 = get_size tys (widestType tys first ids).1 :=
  widest_aux tys ids (first, get_size tys first) rfl

/-- The greedy hole-fill scan keeps its size component equal to the size of
its id component. -/
theorem scanFit_snd (tys : List TypeDescM) (rb : ℕ) :
    ∀ (l : List ℕ) (b : ℕ × ℕ), b.2 = get_size tys b.1 →
      (scanFit tys rb l b).2 = get_size tys (scanFit tys rb l b).1 := by
  intro l
  induction l with
  | nil => exact fun b hb => hb
  | cons x xs ih =>
    intro b hb
    simp only [scanFit]
    by_cases h1 : get_size tys x ≤ rb
    · rw [if_pos h1]
      by_cases h2 : get_size tys x = rb
      · rw [if_pos h2]
      · rw [if_neg h2]; exact ih _ rfl
    · rw [if_neg h1]; exact ih _ hb

/-- Pad absorption only grows the recorded size of entries already staged. -/
theorem absorbLast_mem (pad : ℕ) :
    ∀ (l : List LayoutEntry), ∀ e₁ ∈ absorbLast pad l,
      ∃ e ∈ l, e₁.id = e.id ∧ e.size ≤ e₁.size := by
  intro l
  induction l with
  | nil => intro e₁ h; simp [absorbLast] at h
  | cons x xs ih =>
    cases xs with
    | nil =>
      intro e₁ h
      simp only [absorbLast, List.mem_singleton] at h
      subst h
      exact ⟨x, List.mem_singleton_self x, rfl, Nat.le_add_right _ _⟩
    | cons y ys =>
      intro e₁ h
      simp only [absorbLast] at h
      rcases List.mem_cons.mp h with h | h
      · subst h; exact ⟨e₁, List.mem_cons_self _ _, rfl, Nat.le_refl _⟩
      · obtain ⟨e, he, hid, hsz⟩ := ih e₁ h
        exact ⟨e, List.mem_cons_of_mem _ he, hid, hsz⟩

/-- Every entry the packing loop stages records at least its type's
registered size (the size only grows by pad absorption). -/
theorem packLoop_sizes (tys : List TypeDescM) (alignment : ℕ) :
    ∀ (fuel : ℕ) (remaining : List ℕ) (rb : ℕ) (acc : List LayoutEntry),
      (∀ e ∈ acc, get_size tys e.id ≤ e.size) →
      ∀ e₁ ∈ packLoop tys alignment fuel remaining rb acc,
        get_size tys e₁.id ≤ e₁.size := by
  intro fuel
  induction fuel with
  | zero =>
    intro remaining rb acc hacc e₁ h
    simp only [packLoop] at h
    exact hacc e₁ h
  | succ n ih =>
    intro remaining rb acc hacc e₁ h
    cases remaining with
    | nil =>
      simp only [packLoop] at h
      exact hacc e₁ h
    | cons hd rest =>
      simp only [packLoop] at h
      refine ih _ _ _ ?_ e₁ h
      intro e he
      rcases List.mem_append.mp he with he | he
      · by_cases hb : (scanFit tys rb (hd :: rest) (hd, get_size tys hd)).2 > rb
        · rw [if_pos hb] at he
          obtain ⟨e₀, he₀, hid, hsz⟩ := absorbLast_mem rb acc e he
          exact hid ▸ Nat.le_trans (hacc e₀ he₀) hsz
        · rw [if_neg hb] at he
          exact hacc e he
      · rw [List.mem_singleton] at he
        subst he
        exact Nat.le_of_eq (scanFit_snd tys rb (hd :: rest) (hd, get_size tys hd) rfl).symm

/-- The running total of the offset pass only grows. -/
theorem assignOffsets_le (l : List LayoutEntry) :
    ∀ fam, fam ≤ (assignOffsets l fam).2 := by
  induction l with
  | nil => intro fam; exact Nat.le_refl _
  | cons e rest ih =>
    intro fam
    simp only [assignOffsets]
    exact Nat.le_trans (Nat.le_add_right fam e.size) (ih (fam + e.size))

/-- Every finished entry keeps its staged id and size, and its offset plus
recorded size stays within the final family size. -/
theorem assignOffsets_entries (l : List LayoutEntry) :
    ∀ fam, ∀ e₁ ∈ (assignOffsets l fam).1,
      ∃ e ∈ l, e₁.id = e.id ∧ e₁.size = e.size ∧
        e₁.offset + e₁.size ≤ (assignOffsets l fam).2 := by
  induction l with
  | nil => intro fam e₁ h; simp [assignOffsets] at h
  | cons e rest ih =>
    intro fam e₁ h
    simp only [assignOffsets] at h ⊢
    rcases List.mem_cons.mp h with h | h
    · subst h
      exact ⟨e, List.mem_cons_self _ _, rfl, rfl, assignOffsets_le rest (fam + e.size)⟩
    · obtain ⟨e₀, he₀, h1, h2, h3⟩ := ih (fam + e.size) e₁ h
      exact ⟨e₀, List.mem_cons_of_mem _ he₀, h1, h2, h3⟩

/-- Spec §3 invariant (b) plus the logical-size bound, proved of the
planner: every layout entry's recorded size dominates its type's registered
size, and its offset plus recorded size fits inside the family size. -/
theorem layout_entry_bound (tys : List TypeDescM) (ids : List ℕ) :
    ∀ e ∈ (calculate_layout tys ids).types,
      get_size tys e.id ≤ e.size ∧
      e.offset + e.size ≤ (calculate_layout tys ids).family_size := by
  cases ids with
  | nil => intro e h; simp [calculate_layout] at h
  | cons first rest =>
    intro e h
    simp only [calculate_layout] at h ⊢
    obtain ⟨e₀, he₀, hid, hsz, hbound⟩ := assignOffsets_entries _ 0 e h
    refine ⟨?_, hbound⟩
    have hstaged := packLoop_sizes tys
      (familyAlignment tys first (first :: rest))
      ((first :: rest).length - 1)
      ((first :: rest).erase (widestType tys first (first :: rest)).1)
      (familyAlignment tys first (first :: rest) -
        (widestType tys first (first :: rest)).2 %
          familyAlignment tys first (first :: rest))
      [⟨(widestType tys first (first :: rest)).1,
        (widestType tys first (first :: rest)).2, 0⟩]
      (by
        intro x hx
        rw [List.mem_singleton] at hx
        subst hx
        exact Nat.le_of_eq (widestType_snd tys first (first :: rest)).symm)
    rw [hid, hsz]
    exact hstaged e₀ he₀

/-! ## Zero-byte invariants of the region storage -/

/-- The freshly allocated block is zero. -/
theorem region_init_mem_zero (m : ℕ → ℕ) (base : ℕ) :
    RangeZero (region_init_mem m base) base CHUNK_BYTE_SIZE :=
  fun _ h1 h2 => if_pos ⟨h1, h2⟩

/-- Region allocation preserves every existing all-zero range (it writes only
zeros). -/
theorem region_init_mem_pres {m : ℕ → ℕ} {b n : ℕ} (base : ℕ)
    (h : RangeZero m b n) : RangeZero (region_init_mem m base) b n := by
  intro a h1 h2
  unfold region_init_mem
  split
  · rfl
  · exact h a h1 h2

/-- An all-zero range is all-zero on any sub-range. -/
theorem RangeZero_sub {m : ℕ → ℕ} {b n : ℕ} (h : RangeZero m b n) {p q : ℕ}
    (hp : b ≤ p) (hq : p + q ≤ b + n) : RangeZero m p q :=
  fun a h1 h2 => h a (Nat.le_trans hp h1) (by omega)

/-- One reservation-loop iteration preserves the request invariant: region
counts stay within capacity and every byte of every region, pooled segment
and collected segment stays zero. -/
theorem request_step_inv (fs count : ℕ) (r : ReqC) (h : ReqInv fs r) :
    ReqInv fs (request_step fs count r) := by
  obtain ⟨⟨hwf, hregz, hunz⟩, hsegz⟩ := h
  unfold RegionsWF at hwf
  unfold request_step
  by_cases hi : count ≤ r.i
  · rw [if_pos hi]; exact ⟨⟨hwf, hregz, hunz⟩, hsegz⟩
  · rw [if_neg hi]
    unfold ReqInv StoreInv RegionsWF
    have hfrac : CHUNK_BYTE_SIZE / fs * fs ≤ CHUNK_BYTE_SIZE := Nat.div_mul_le_self _ _
    set fpr := CHUNK_BYTE_SIZE / fs with hfpr
    clear_value fpr
    clear hfpr
    cases hreg : r.st.regions with
    | nil =>
      simp only [hreg, storePrepend]
      refine ⟨⟨?_, ?_, ?_⟩, ?_⟩
      · intro reg hmem
        rcases List.mem_cons.mp hmem with hh | hh
        · subst hh; show 0 + min (fpr - 0) (count - r.i) ≤ fpr; omega
        · cases hh
      · intro reg hmem
        rcases List.mem_cons.mp hmem with hh | hh
        · subst hh; exact region_init_mem_zero _ _
        · cases hh
      · intro seg hseg
        exact region_init_mem_pres _ (hunz seg hseg)
      · intro seg hseg
        rcases List.mem_append.mp hseg with hh | hh
        · exact region_init_mem_pres _ (hsegz seg hh)
        · rw [List.mem_singleton] at hh
          subst hh
          refine RangeZero_sub (region_init_mem_zero r.st.mem r.st.allocPtr) ?_ ?_
          · show r.st.allocPtr ≤ r.st.allocPtr + 0 * fs; omega
          · show r.st.allocPtr + 0 * fs + min (fpr - 0) (count - r.i) * fs ≤
              r.st.allocPtr + CHUNK_BYTE_SIZE
            have : min (fpr - 0) (count - r.i) * fs ≤ fpr * fs :=
              Nat.mul_le_mul_right _ (by omega)
            omega
    | cons reg0 rest =>
      have hwf0 : reg0.count ≤ fpr := hwf reg0 (by rw [hreg]; exact List.mem_cons_self _ _)
      have hregz0 : RangeZero r.st.mem reg0.base CHUNK_BYTE_SIZE :=
        hregz reg0 (by rw [hreg]; exact List.mem_cons_self _ _)
      by_cases hfull : fpr - reg0.count = 0
      · simp only [hreg, if_pos hfull, storePrepend]
        refine ⟨⟨?_, ?_, ?_⟩, ?_⟩
        · intro reg hmem
          rcases List.mem_cons.mp hmem with hh | hh
          · subst hh; show 0 + min (fpr - 0) (count - r.i) ≤ fpr; omega
          · exact hwf reg (by rw [hreg]; exact hh)
        · intro reg hmem
          rcases List.mem_cons.mp hmem with hh | hh
          · subst hh; exact region_init_mem_zero _ _
          · exact region_init_mem_pres _ (hregz reg (by rw [hreg]; exact hh))
        · intro seg hseg
          exact region_init_mem_pres _ (hunz seg hseg)
        · intro seg hseg
          rcases List.mem_append.mp hseg with hh | hh
          · exact region_init_mem_pres _ (hsegz seg hh)
          · rw [List.mem_singleton] at hh
            subst hh
            refine RangeZero_sub (region_init_mem_zero r.st.mem r.st.allocPtr) ?_ ?_
            · show r.st.allocPtr ≤ r.st.allocPtr + 0 * fs; omega
            · show r.st.allocPtr + 0 * fs + min (fpr - 0) (count - r.i) * fs ≤
                r.st.allocPtr + CHUNK_BYTE_SIZE
              have : min (fpr - 0) (count - r.i) * fs ≤ fpr * fs :=
                Nat.mul_le_mul_right _ (by omega)
              omega
      · simp only [hreg, if_neg hfull]
        have hj : reg0.count + min (fpr - reg0.count) (count - r.i) ≤ fpr := by omega
        refine ⟨⟨?_, ?_, ?_⟩, ?_⟩
        · intro reg hmem
          rcases List.mem_cons.mp hmem with hh | hh
          · subst hh
            show reg0.count + min (fpr - reg0.count) (count - r.i) ≤ fpr
            omega
          · exact hwf reg (by rw [hreg]; exact List.mem_cons_of_mem _ hh)
        · intro reg hmem
          rcases List.mem_cons.mp hmem with hh | hh
          · subst hh; exact hregz0
          · exact hregz reg (by rw [hreg]; exact List.mem_cons_of_mem _ hh)
        · exact hunz
        · intro seg hseg
          rcases List.mem_append.mp hseg with hh | hh
          · exact hsegz seg hh
          · rw [List.mem_singleton] at hh
            subst hh
            refine RangeZero_sub hregz0 ?_ ?_
            · show reg0.base ≤ reg0.base + reg0.count * fs; omega
            · show reg0.base + reg0.count * fs +
                  min (fpr - reg0.count) (count - r.i) * fs ≤
                reg0.base + CHUNK_BYTE_SIZE
              have hmul : (reg0.count + min (fpr - reg0.count) (count - r.i)) * fs ≤
                  fpr * fs :=
                Nat.mul_le_mul_right _ hj
              rw [Nat.add_mul] at hmul
              omega

/-- Iterating the reservation loop preserves the request invariant. -/
theorem request_iter_inv (fs count : ℕ) :
    ∀ (n : ℕ) (r : ReqC), ReqInv fs r → ReqInv fs (request_iter fs count n r) := by
  intro n
  induction n with
  | zero => exact fun r h => h
  | succ n ih =>
    intro r h
    simp only [request_iter]
    exact ih _ (request_step_inv fs count r h)

/-- A full reservation request preserves the invariant: the storage invariant
carries over the drained pool and the loop. -/
theorem mkRequest_inv (fs : ℕ) (st : StoreSt) (count : ℕ) (h : StoreInv fs st) :
    ReqInv fs (mkRequest fs st count) := by
  unfold mkRequest
  apply request_iter_inv
  refine ⟨h, ?_⟩
  intro seg hseg
  rw [List.mem_reverse] at hseg
  exact h.2.2 seg hseg

/-- Every storage state reachable through the spawn path satisfies the
zero-byte storage invariant. -/
theorem storeReach_inv {fs : ℕ} {st : StoreSt} (h : StoreReach fs st) :
    StoreInv fs st := by
  induction h with
  | init m ap =>
    refine ⟨?_, ?_, ?_⟩ <;> intro x hx <;> cases hx
  | commit st count _ ih =>
    obtain ⟨⟨hwf, hregz, _⟩, _⟩ := mkRequest_inv fs st count ih
    exact ⟨hwf, hregz, fun seg hseg => absurd hseg (List.not_mem_nil seg)⟩
  | abort st count _ ih =>
    obtain ⟨⟨hwf, hregz, hunz⟩, hsegz⟩ := mkRequest_inv fs st count ih
    refine ⟨hwf, hregz, ?_⟩
    intro seg hseg
    rcases List.mem_append.mp hseg with hh | hh
    · exact hunz seg hh
    · exact hsegz seg hh

/-- C4.  Freshly reserved slots read as zero across every component's logical
span: for any storage state reachable through the spawn path (fresh regions,
committed reservations, aborted reservations feeding the free pool), every
segment a new reservation hands out — whether carved from a region that
`region_init` zeroed at allocation or drawn back out of the free pool — is
all-zero, so slot `j`'s component of type `e.id` reads zero on each of its
`get_size` logical bytes.  The initial heap contents are arbitrary, so the
zeros come from `memset` in `region_init` (world.c:146), not from the model. -/
theorem c4_fresh_slots_zero (tys : List TypeDescM) (ids : List ℕ) (L : LayoutM)
    (hL : L = calculate_layout tys ids) (st : StoreSt) (count : ℕ)
    (hre : StoreReach L.family_size st) :
    ∀ seg ∈ (mkRequest L.family_size st count).segs,
      ∀ j < seg.count, ∀ e ∈ L.types, ∀ k < get_size tys e.id,
        (mkRequest L.family_size st count).st.mem
            (seg.ptr + j * L.family_size + e.offset + k) = 0 := by
  subst hL
  intro seg hseg j hj e he k hk
  obtain ⟨-, hsegz⟩ :=
    mkRequest_inv (calculate_layout tys ids).family_size st count (storeReach_inv hre)
  have hz := hsegz seg hseg
  obtain ⟨hsz, hoff⟩ := layout_entry_bound tys ids e he
  have hjmul : (j + 1) * (calculate_layout tys ids).family_size ≤
      seg.count * (calculate_layout tys ids).family_size :=
    Nat.mul_le_mul_right _ hj
  rw [Nat.add_mul, Nat.one_mul] at hjmul
  apply hz
  · omega
  · omega

/-- Witness for C4: one slot of the single-type storage `tysW` reserved on a
fresh storage whose backing heap initially holds 7 in every byte; the slot's
component byte reads 0. -/
theorem c4_fresh_slots_zero_witness :
    (mkRequest (calculate_layout tysW [0]).family_size stW 1).st.mem 0 = 0 := by
  have h := c4_fresh_slots_zero tysW [0] (calculate_layout tysW [0]) rfl stW 1
    (StoreReach.init (fun _ => 7) 0) ⟨0, 1⟩ (by decide) 0 (by decide)
    ⟨0, 2, 0⟩ (by decide) 0 (by decide)
  simpa using h

/-! ## Termination of the reservation loop -/

/-- When `0 < fs ≤ CHUNK_BYTE_SIZE`, one unfinished reservation pass reserves
at least one slot and keeps region counts within capacity. -/
theorem request_step_progress (fs count : ℕ) (r : ReqC) (h1 : 1 ≤ fs)
    (h2 : fs ≤ CHUNK_BYTE_SIZE) (hwf : RegionsWF fs r.st.regions)
    (hi : r.i < count) :
    r.i + 1 ≤ (request_step fs count r).i ∧
    RegionsWF fs (request_step fs count r).st.regions := by
  unfold RegionsWF at hwf
  have hfpr : 1 ≤ CHUNK_BYTE_SIZE / fs := (Nat.one_le_div_iff h1).mpr h2
  unfold request_step RegionsWF
  rw [if_neg (by omega)]
  set fpr := CHUNK_BYTE_SIZE / fs with hfprdef
  clear_value fpr
  clear hfprdef
  cases hreg : r.st.regions with
  | nil =>
    simp only [hreg, storePrepend]
    refine ⟨?_, ?_⟩
    · show r.i + 1 ≤ r.i + min (fpr - 0) (count - r.i); omega
    · intro reg hmem
      rcases List.mem_cons.mp hmem with hh | hh
      · subst hh; show 0 + min (fpr - 0) (count - r.i) ≤ fpr; omega
      · cases hh
  | cons reg0 rest =>
    have hwf0 : reg0.count ≤ fpr := hwf reg0 (by rw [hreg]; exact List.mem_cons_self _ _)
    by_cases hfull : fpr - reg0.count = 0
    · simp only [hreg, if_pos hfull, storePrepend]
      refine ⟨?_, ?_⟩
      · show r.i + 1 ≤ r.i + min (fpr - 0) (count - r.i); omega
      · intro reg hmem
        rcases List.mem_cons.mp hmem with hh | hh
        · subst hh; show 0 + min (fpr - 0) (count - r.i) ≤ fpr; omega
        · exact hwf reg (by rw [hreg]; exact hh)
    · simp only [hreg, if_neg hfull]
      refine ⟨?_, ?_⟩
      · show r.i + 1 ≤ r.i + min (fpr - reg0.count) (count - r.i); omega
      · intro reg hmem
        rcases List.mem_cons.mp hmem with hh | hh
        · subst hh
          show reg0.count + min (fpr - reg0.count) (count - r.i) ≤ fpr
          omega
        · exact hwf reg (by rw [hreg]; exact List.mem_cons_of_mem _ hh)

/-- When `0 < fs ≤ CHUNK_BYTE_SIZE`, `n` reservation passes bring the slot
counter to at least `min count (i₀ + n)`. -/
theorem request_iter_progress (fs count : ℕ) (h1 : 1 ≤ fs)
    (h2 : fs ≤ CHUNK_BYTE_SIZE) :
    ∀ (n : ℕ) (r : ReqC), RegionsWF fs r.st.regions →
      min count (r.i + n) ≤ (request_iter fs count n r).i := by
  intro n
  induction n with
  | zero => intro r _; simp only [request_iter]; omega
  | succ n ih =>
    intro r hwf
    simp only [request_iter]
    by_cases hi : r.i < count
    · have hp := request_step_progress fs count r h1 h2 hwf hi
      have hrec := ih (request_step fs count r) hp.2
      have h3 := hp.1
      omega
    · have hstep : request_step fs count r = r := by
        unfold request_step; rw [if_pos (by omega)]
      rw [hstep]
      have hrec := ih r hwf
      omega

/-- When `fs > CHUNK_BYTE_SIZE`, a region holds zero families, so one
reservation pass reserves nothing (the slot counter never moves) and region
counts stay at their capacity bound of zero. -/
theorem request_step_stalls (fs count : ℕ) (r : ReqC) (h : CHUNK_BYTE_SIZE < fs)
    (hwf : RegionsWF fs r.st.regions) :
    (request_step fs count r).i = r.i ∧
    RegionsWF fs (request_step fs count r).st.regions := by
  have hfpr : CHUNK_BYTE_SIZE / fs = 0 := Nat.div_eq_of_lt h
  unfold RegionsWF at hwf
  unfold request_step RegionsWF
  rw [hfpr] at hwf ⊢
  by_cases hi : count ≤ r.i
  · rw [if_pos hi]; exact ⟨rfl, hwf⟩
  · rw [if_neg hi]
    cases hreg : r.st.regions with
    | nil =>
      simp only [hreg, storePrepend]
      refine ⟨?_, ?_⟩
      · show r.i + min (0 - 0) (count - r.i) = r.i; omega
      · intro reg hmem
        rcases List.mem_cons.mp hmem with hh | hh
        · subst hh; show 0 + min (0 - 0) (count - r.i) ≤ 0; omega
        · cases hh
    | cons reg0 rest =>
      have hwf0 : reg0.count ≤ 0 := hwf reg0 (by rw [hreg]; exact List.mem_cons_self _ _)
      have hfull : (0 : ℕ) - reg0.count = 0 := by omega
      simp only [hreg, if_pos hfull, storePrepend]
      refine ⟨?_, ?_⟩
      · show r.i + min (0 - 0) (count - r.i) = r.i; omega
      · intro reg hmem
        rcases List.mem_cons.mp hmem with hh | hh
        · subst hh; show 0 + min (0 - 0) (count - r.i) ≤ 0; omega
        · exact hwf reg (by rw [hreg]; exact hh)

/-- When `fs > CHUNK_BYTE_SIZE`, any number of reservation passes leaves the
slot counter where it started. -/
theorem request_iter_stalls (fs count : ℕ) (h : CHUNK_BYTE_SIZE < fs) :
    ∀ (n : ℕ) (r : ReqC), RegionsWF fs r.st.regions →
      (request_iter fs count n r).i = r.i := by
  intro n
  induction n with
  | zero => intro r _; rfl
  | succ n ih =>
    intro r hwf
    simp only [request_iter]
    have hp := request_step_stalls fs count r h hwf
    rw [ih (request_step fs count r) hp.2, hp.1]

/-- C10.  With well-formed region counts, the reservation loop of
`storage_request_regions` terminates exactly when the family size stays
within a chunk: for `0 < fs ≤ CHUNK_BYTE_SIZE` every unfinished pass reserves
at least one slot, and `count` passes complete any `count`-slot request (the
loop guard `i < count` goes false); for `fs > CHUNK_BYTE_SIZE` a chunk holds
zero families, no pass ever advances the slot counter, and the `while
(i < count)` loop of world.c:475 runs forever for any positive `count`. -/
theorem c10_reservation_termination (fs count : ℕ) (r : ReqC) :
    (1 ≤ fs → fs ≤ CHUNK_BYTE_SIZE → RegionsWF fs r.st.regions →
      (r.i < count → r.i + 1 ≤ (request_step fs count r).i) ∧
      count ≤ (request_iter fs count count r).i) ∧
    (CHUNK_BYTE_SIZE < fs → RegionsWF fs r.st.regions →
      ∀ n, (request_iter fs count n r).i = r.i) := by
  constructor
  · intro h1 h2 hwf
    refine ⟨fun hi => (request_step_progress fs count r h1 h2 hwf hi).1, ?_⟩
    have := request_iter_progress fs count h1 h2 count r hwf
    omega
  · intro h hwf n
    exact request_iter_stalls fs count h n r hwf

/-- Witness for C10: on a fresh storage, a 2-slot request over a 4-byte
family completes within 2 passes, while over a `CHUNK_BYTE_SIZE + 1`-byte
family the counter is still 0 after 3 passes. -/
theorem c10_reservation_termination_witness :
    2 ≤ (request_iter 4 2 2 reqW).i ∧
    (request_iter (CHUNK_BYTE_SIZE + 1) 2 3 reqW).i = 0 := by
  constructor
  · exact ((c10_reservation_termination 4 2 reqW).1 (by decide) (by decide)
      (by intro reg hmem; cases hmem)).2
  · exact (c10_reservation_termination (CHUNK_BYTE_SIZE + 1) 2 reqW).2 (by decide)
      (by intro reg hmem; cases hmem) 3

/-! ## Dispatch order -/

/-- C9 counterexample.  `cig_world_step` walks the system hash map
(world.c:1212-1214), whose iteration order the container contract of spec
§6.4 leaves unspecified.  With two registered systems each matching one
single-slot storage, the conforming iteration order `[1, 0]` (a permutation
of the registration indices) makes every invocation of the second-registered
system precede the first-registered system's — so a `step` need not invoke
systems in registration order. -/
theorem c9_reverse_order_trace :
    ([1, 0] : List ℕ).Perm (List.range 2) ∧
    step_trace dsys2 [1, 0] = [(1, 0, 0, 0), (0, 0, 0, 0)] ∧
    ¬ RegOrdered (step_trace dsys2 [1, 0]) := by decide

/-- C9 amended.  Under any iteration order conforming to the spec §6.4
contract (a permutation of the registration indices), `step` dispatches every
registered system exactly once, and the multiset of callback invocations —
system, storage, region and slot of each — is exactly that of the
registration-order dispatch; only the interleaving between systems follows
the table's iteration order rather than registration order. -/
theorem c9_step_each_system_once (systems : List DSystem) (order : List ℕ)
    (h : order.Perm (List.range systems.length)) :
    (step_trace systems order).Perm
      (step_trace systems (List.range systems.length)) ∧
    ∀ j < systems.length, order.count j = 1 := by
  constructor
  · exact List.Perm.flatMap_right _ h
  · intro j hj
    rw [h.count_eq]
    exact List.count_eq_one_of_mem (List.nodup_range _) (List.mem_range.mpr hj)

/-- Witness for C9's amended statement at the reversed two-system order. -/
theorem c9_step_each_system_once_witness :
    (step_trace dsys2 [1, 0]).Perm
      (step_trace dsys2 (List.range dsys2.length)) ∧
    ∀ j < dsys2.length, ([1, 0] : List ℕ).count j = 1 :=
  c9_step_each_system_once dsys2 [1, 0] (by decide)

/-! ## Component access -/

/-- C6 amended.  In a well-formed world, `cig_world_get_component` returns
NULL exactly when the entity's record pointer is NULL (equivalently: the
entity is not live, or its archetype has family size zero, as in a tag-only
archetype), or the type name is not registered, or the archetype's mask lacks
the type id; in every other case it returns a pointer into the entity's
record at the type's layout offset. -/
theorem c6_get_component_spec (w : WorldM) (hwf : WFWorld w) (e : ℕ)
    (ei : EntityM) (he : w.entities.get? e = some ei) (n : List Char) :
    (cig_world_get_component w e n = none ↔
      (ei.ptr = none ∨ get_id w.types n = none ∨
        ∃ id st, get_id w.types n = some id ∧ storageOf w ei = some st ∧
          id ∉ st.mask)) ∧
    (∀ p id st, ei.ptr = some p → get_id w.types n = some id →
      storageOf w ei = some st → id ∈ st.mask →
      cig_world_get_component w e n = some (p + get_offset st.layout id)) ∧
    (ei.ptr = none ↔
      (ei.storage = none ∨
        (storageOf w ei).map (fun st => st.layout.family_size) = some 0)) := by
  obtain ⟨hdir, hlay⟩ := hwf
  have heimem : ei ∈ w.entities := List.get?_mem he
  obtain ⟨hps, hptr⟩ := hdir ei heimem
  refine ⟨?_, ?_, hptr⟩
  · unfold cig_world_get_component
    rw [he]
    cases hp : ei.ptr with
    | none => simp [hp]
    | some p =>
      cases hid : get_id w.types n with
      | none => simp [hp, hid]
      | some id =>
        cases hst : storageOf w ei with
        | none =>
          exfalso
          have := hps (by rw [hp]; rfl)
          rw [hst] at this
          cases this
        | some st =>
          have hstmem : st ∈ w.storages := by
            unfold storageOf at hst
            cases hsto : ei.storage with
            | none => rw [hsto] at hst; cases hst
            | some si =>
              rw [hsto] at hst
              exact List.get?_mem hst
          simp only [hp, hid, hst]
          by_cases hm : id ∈ st.mask
          · rw [if_pos hm]
            have hoff := hlay st hstmem id hm
            rw [if_neg hoff]
            constructor
            · intro hcon; cases hcon
            · rintro (hx | hx | ⟨id1, st1, hid1, hst1, hnm⟩)
              · cases hx
              · cases hx
              · injection hid1 with hid1
                subst hid1
                injection hst1 with hst1
                subst hst1
                exact absurd hm hnm
          · rw [if_neg hm]
            constructor
            · intro _
              exact Or.inr (Or.inr ⟨id, st, rfl, rfl, hm⟩)
            · intro _; rfl
  · intro p id st hp hid hst hm
    unfold cig_world_get_component
    simp only [he, hp, hid, hst]
    rw [if_pos hm]
    have hstmem : st ∈ w.storages := by
      unfold storageOf at hst
      cases hsto : ei.storage with
      | none => rw [hsto] at hst; cases hst
      | some si =>
        rw [hsto] at hst
        exact List.get?_mem hst
    rw [if_neg (hlay st hstmem id hm)]

/-- Witness for C6's amended statement: in the spawned tag world the live
entity's record pointer is NULL (family size 0), so `get_component` returns
NULL by the first disjunct. -/
theorem c6_get_component_spec_witness :
    cig_world_get_component tagWorld1 0 tagName = none := by
  have h := c6_get_component_spec tagWorld1 (by decide) 0 ⟨some 0, none⟩
    (by decide) tagName
  exact h.1.mpr (Or.inl rfl)

end Ciggurat
